import Mathlib

/-!
# Verification of the BB84 simulator core

Shallow embedding of the algorithmic core of the BB84-Streamlit-app repository:

* `bb84_simulator.py` — `BB84Simulator.encode_qubit`, `simulate_transmission`,
  `privacy_amplification`, `assess_security`;
* `bb84_2.py` — the QBER computation in `compute_scenario` inside
  `run_bb84_simulation`;
* one caveat established during review: `bb84_simulator.py` as staged is not
  valid Python — a stale docstring remnant (lines 329-331) reopens a
  triple-quoted string that swallows the body of `assess_security` and the
  file fails to tokenize, so the module can never be imported; the
  `assess_security` embedding below transcribes that dead body text and says
  so in its doc comment;
* definitions imported from `bb84_config.py` / `bb84_utils.py` (files not part
  of the sources at hand) are modelled from the specification and marked as
  such in their doc comments.

Conventions: classical bits and bases are `Bool` (`false` = 0 = Z basis,
`true` = 1 = X basis); Python floats are embedded as `ℚ` on the code paths the
claims exercise, where every value involved is exactly representable in IEEE
doubles; randomness (numpy global RNG draws and Aer measurement shots) is
threaded through as an explicit tape of draws.
-/

/-! ## Single-qubit circuit semantics

Every circuit built by `simulate_transmission` has the shape: start in |0⟩,
apply `X` zero or one times, then apply `H` up to three times, then measure in
the computational basis.  All states reachable this way lie in
\{|0⟩, |1⟩, |+⟩, |−⟩\} (up to a global phase, which is unobservable):
`X` permutes \{|0⟩,|1⟩\} and fixes \{|+⟩,|−⟩\} up to phase (X|−⟩ = −|−⟩), and
`H` swaps the two families.  The Aer backend samples each measurement shot
from the Born distribution: deterministic on |0⟩/|1⟩, a fair coin on |+⟩/|−⟩.
The coin consumed by `measureZ` is that shot's sampled outcome. -/

inductive QState where
  | rect : Bool → QState
  | diag : Bool → QState
deriving DecidableEq, Repr

/-- The `X` gate on the four reachable states (`X|+⟩ = |+⟩`, `X|−⟩ = −|−⟩ ≃ |−⟩`
up to global phase). -/
def gateX : QState → QState
  | QState.rect b => QState.rect (!b)
  | QState.diag b => QState.diag b

/-- The `H` gate: `H|0⟩ = |+⟩`, `H|1⟩ = |−⟩`, and conversely. -/
def gateH : QState → QState
  | QState.rect b => QState.diag b
  | QState.diag b => QState.rect b

/-- Computational-basis measurement, Born rule on the four reachable states:
deterministic on |0⟩/|1⟩, and for |+⟩/|−⟩ the outcome is the shot's uniform
random draw `coin`. -/
def measureZ : QState → Bool → Bool
  | QState.rect b, _ => b
  | QState.diag _, coin => coin

/-- `if cond: qc.x(0)` applied to a state. -/
def xPow (g : Bool) (s : QState) : QState := if g then gateX s else s

/-- `if cond: qc.h(0)` applied to a state. -/
def hPow (g : Bool) (s : QState) : QState := if g then gateH s else s

/-- The freshly allocated qubit `QuantumCircuit(1, 1)`, i.e. |0⟩. -/
def qZero : QState := QState.rect false

/-- `BB84Simulator.encode_qubit` (bb84_simulator.py lines 25-41): `X` if the
bit is 1, then `H` if the basis is 1 (X basis). -/
def encode_qubit (bit basis : Bool) : QState := hPow basis (xPow bit qZero)

/-! ## The transmission simulator

`BB84Simulator.simulate_transmission` (bb84_simulator.py lines 43-186).  The
source draws its randomness from the ambient numpy global RNG
(`np.random.randint(0, 2, n)` for Eve's bases, `np.random.random(n)` compared
with `eve_intercept_prob` for the intercept decisions, `np.random.random()`
compared with `noise_prob` for the channel noise) and from the Aer simulator's
per-shot sampling.  The embedding threads all of these through explicitly as a
tape of per-index draws. -/

structure Tape where
  /-- Eve's random basis for index `i`: `np.random.randint(0, 2, n)`, line 104. -/
  eveBasis : ℕ → Bool
  /-- the uniform draw on [0,1) compared with `eve_intercept_prob`, line 109. -/
  interceptDraw : ℕ → ℚ
  /-- the sampled outcome of Eve's measurement shot at index `i`, line 138. -/
  eveShot : ℕ → Bool
  /-- the sampled outcome of Bob's measurement shot at index `i`, line 175. -/
  bobShot : ℕ → Bool
  /-- the uniform draw on [0,1) compared with `noise_prob`, line 183. -/
  noiseDraw : ℕ → ℚ

/-- Channel noise, line 183-184: `if noise_prob > 0 and np.random.random() <
noise_prob: bob_results[i] = 1 - bob_results[i]`. -/
def applyNoise (t : Tape) (noiseProb : ℚ) (i : ℕ) (b : Bool) : Bool :=
  if 0 < noiseProb ∧ t.noiseDraw i < noiseProb then !b else b

/-- One iteration of the per-index loop, bb84_simulator.py lines 120-184.
Index lookups into `alice_bases` / `bob_bases` may be out of range when the
arrays are shorter than `alice_bits` (the source raises `IndexError`, embedded
as `none`).  Note the faithful quirk of the source: in the intercept branch
`alice_bases[i]` is never read, so Alice's basis gate (line 163-164) is never
applied to a qubit that Eve intercepts — Eve measures `X^bit |0⟩ = |bit⟩`
directly.  The returned pair is `(bob_results[i], eve_results[i])`, the second
component being the `np.zeros` placeholder `false` when Eve does not intercept
this index. -/
def transmitStep (t : Tape) (alice_bases bob_bases : List Bool)
    (eve_present : Bool) (eve_intercept_prob noise_prob : ℚ)
    (bit : Bool) (i : ℕ) : Option (Bool × Bool) :=
  if eve_present = true ∧ t.interceptDraw i < eve_intercept_prob then
    let sE := hPow (t.eveBasis i) (xPow bit qZero)
    let eveRes := measureZ sE (t.eveShot i)
    match bob_bases.get? i with
    | none => none
    | some bb =>
      let resent := hPow (t.eveBasis i) (xPow eveRes qZero)
      some (applyNoise t noise_prob i (measureZ (hPow bb resent) (t.bobShot i)), eveRes)
  else
    match alice_bases.get? i, bob_bases.get? i with
    | some ab, some bb =>
      some (applyNoise t noise_prob i
        (measureZ (hPow bb (hPow ab (xPow bit qZero))) (t.bobShot i)), false)
    | _, _ => none

/-- The loop `for i in range(n)` over `alice_bits`, threading the running
index; `none` as soon as any iteration raises. -/
def simLoop (t : Tape) (alice_bases bob_bases : List Bool)
    (eve_present : Bool) (eve_intercept_prob noise_prob : ℚ) :
    List Bool → ℕ → Option (List (Bool × Bool))
  | [], _ => some []
  | bit :: rest, i =>
    match transmitStep t alice_bases bob_bases eve_present eve_intercept_prob
        noise_prob bit i,
      simLoop t alice_bases bob_bases eve_present eve_intercept_prob noise_prob
        rest (i + 1) with
    | some pr, some l => some (pr :: l)
    | _, _ => none

/-- `BB84Simulator.simulate_transmission` (bb84_simulator.py lines 43-186):
returns `(bob_results, eve_results)` with `eve_results = None` when
`eve_present` is false (line 186), and `none` overall if any index lookup
raises. -/
def simulate_transmission (t : Tape) (alice_bits alice_bases bob_bases : List Bool)
    (eve_present : Bool) (eve_intercept_prob noise_prob : ℚ) :
    Option (List Bool × Option (List Bool)) :=
  (simLoop t alice_bases bob_bases eve_present eve_intercept_prob noise_prob
      alice_bits 0).map
    (fun l => (l.map Prod.fst, if eve_present then some (l.map Prod.snd) else none))

/-! ## SHA-256 and SHA-512

`privacy_amplification` hashes the serialized sifted key with
`hashlib.sha256` / `hashlib.sha512` (bb84_simulator.py lines 260, 268).
These are the FIPS 180-4 functions; they are implemented here over byte
lists, generic in the word size.  Round constants and initial hash values
are, per FIPS 180-4, the leading bits of the fractional parts of the cube
roots (resp. square roots) of the first primes. -/

/-- Integer cube root by bisection; `fuel` bounds the number of bisection
steps (the interval halves each step, so `n + 2` steps always suffice).
Invariant: `lo ^ 3 ≤ n < hi ^ 3`. -/
def icbrtAux (n : ℕ) : ℕ → ℕ → ℕ → ℕ
  | 0, lo, _ => lo
  | fuel + 1, lo, hi =>
    if hi ≤ lo + 1 then lo
    else
      let mid := (lo + hi) / 2
      if mid ^ 3 ≤ n then icbrtAux n fuel mid hi else icbrtAux n fuel lo mid

/-- `icbrt n` is the integer cube root of `n`. -/
def icbrt (n : ℕ) : ℕ := icbrtAux n (n + 2) 0 (n + 1)

/-- The first 80 primes: sources of the SHA round constants. -/
def primes80 : List ℕ :=
  [2, 3, 5, 7, 11, 13, 17, 19, 23, 29, 31, 37, 41, 43, 47, 53, 59, 61, 67, 71,
   73, 79, 83, 89, 97, 101, 103, 107, 109, 113, 127, 131, 137, 139, 149, 151,
   157, 163, 167, 173, 179, 181, 191, 193, 197, 199, 211, 223, 227, 229, 233,
   239, 241, 251, 257, 263, 269, 271, 277, 281, 283, 293, 307, 311, 313, 317,
   331, 337, 347, 349, 353, 359, 367, 373, 379, 383, 389, 397, 401, 409]

/-- First `w` bits of the fractional part of the cube root of `p`. -/
def fracCbrtBits (w p : ℕ) : ℕ := icbrt (p * 2 ^ (3 * w)) % 2 ^ w

/-- First `w` bits of the fractional part of the square root of `p`. -/
def fracSqrtBits (w p : ℕ) : ℕ := Nat.sqrt (p * 2 ^ (2 * w)) % 2 ^ w

/-- Right rotation of a `w`-bit word. -/
def rotr (w n x : ℕ) : ℕ := x / 2 ^ n + x % 2 ^ n * 2 ^ (w - n)

/-- Logical right shift. -/
def shr (n x : ℕ) : ℕ := x / 2 ^ n

/-- `Ch(e, f, g) = (e ∧ f) ⊕ (¬e ∧ g)` on `w`-bit words. -/
def shaCh (w e f g : ℕ) : ℕ := (e &&& f) ^^^ ((e ^^^ (2 ^ w - 1)) &&& g)

/-- `Maj(a, b, c) = (a ∧ b) ⊕ (a ∧ c) ⊕ (b ∧ c)`. -/
def shaMaj (a b c : ℕ) : ℕ := (a &&& b) ^^^ (a &&& c) ^^^ (b &&& c)

/-- Parameters distinguishing SHA-256 from SHA-512: word size in bits, number
of rounds, block size and length-field size in bytes, word size in bytes, and
the rotation/shift amounts of the four sigma functions. -/
structure ShaParams where
  w : ℕ
  rounds : ℕ
  blockBytes : ℕ
  wordBytes : ℕ
  lenBytes : ℕ
  s0a : ℕ
  s0b : ℕ
  s0c : ℕ
  s1a : ℕ
  s1b : ℕ
  s1c : ℕ
  b0a : ℕ
  b0b : ℕ
  b0c : ℕ
  b1a : ℕ
  b1b : ℕ
  b1c : ℕ

/-- σ0, the message-schedule sigma with a shift. -/
def smallSigma0 (P : ShaParams) (x : ℕ) : ℕ :=
  rotr P.w P.s0a x ^^^ rotr P.w P.s0b x ^^^ shr P.s0c x

/-- σ1. -/
def smallSigma1 (P : ShaParams) (x : ℕ) : ℕ :=
  rotr P.w P.s1a x ^^^ rotr P.w P.s1b x ^^^ shr P.s1c x

/-- Σ0, the compression sigma. -/
def bigSigma0 (P : ShaParams) (x : ℕ) : ℕ :=
  rotr P.w P.b0a x ^^^ rotr P.w P.b0b x ^^^ rotr P.w P.b0c x

/-- Σ1. -/
def bigSigma1 (P : ShaParams) (x : ℕ) : ℕ :=
  rotr P.w P.b1a x ^^^ rotr P.w P.b1b x ^^^ rotr P.w P.b1c x

/-- Round constant `K[t]`: fractional cube-root bits of the `t`-th prime. -/
def shaK (P : ShaParams) (t : ℕ) : ℕ := fracCbrtBits P.w (primes80.getD t 0)

/-- The eight-word working state / hash value. -/
structure Hash8 where
  a : ℕ
  b : ℕ
  c : ℕ
  d : ℕ
  e : ℕ
  f : ℕ
  g : ℕ
  h : ℕ

/-- Initial hash value `H⁽⁰⁾`: fractional square-root bits of the first
eight primes. -/
def initHash (P : ShaParams) : Hash8 :=
  ⟨fracSqrtBits P.w 2, fracSqrtBits P.w 3, fracSqrtBits P.w 5, fracSqrtBits P.w 7,
   fracSqrtBits P.w 11, fracSqrtBits P.w 13, fracSqrtBits P.w 17, fracSqrtBits P.w 19⟩

/-- Split a byte list into chunks of `k` bytes; `fuel ≥ length` makes the
recursion structural. -/
def chunksFuel (k : ℕ) : ℕ → List ℕ → List (List ℕ)
  | 0, _ => []
  | _, [] => []
  | fuel + 1, l => l.take k :: chunksFuel k fuel (l.drop k)

/-- Big-endian words of `k` bytes each. -/
def wordsOfBytes (k : ℕ) (bytes : List ℕ) : List ℕ :=
  (chunksFuel k bytes.length bytes).map (fun c => c.foldl (fun a b => a * 256 + b) 0)

/-- Big-endian encoding of `n` on `bytes` bytes (so implicitly mod
`2 ^ (8 * bytes)`, as in FIPS 180-4's fixed-width length field). -/
def lenBE (bytes n : ℕ) : List ℕ :=
  (List.range bytes).map (fun i => n / 256 ^ (bytes - 1 - i) % 256)

/-- FIPS 180-4 padding: append `0x80`, then zeros up to `lenBytes` short of a
block boundary, then the bit length big-endian on `lenBytes` bytes. -/
def padMessage (P : ShaParams) (msg : List ℕ) : List ℕ :=
  let L := msg.length
  let target := P.blockBytes - P.lenBytes
  let z := (target + P.blockBytes - 1 - L % P.blockBytes) % P.blockBytes
  msg ++ [128] ++ List.replicate z 0 ++ lenBE P.lenBytes (8 * L)

/-- Extend the 16 block words to the full message schedule by `k` more words:
`W[t] = σ1(W[t-2]) + W[t-7] + σ0(W[t-15]) + W[t-16] mod 2^w`. -/
def extendW (P : ShaParams) : ℕ → List ℕ → List ℕ
  | 0, ws => ws
  | k + 1, ws =>
    let t := ws.length
    let nw := (smallSigma1 P (ws.getD (t - 2) 0) + ws.getD (t - 7) 0 +
      smallSigma0 P (ws.getD (t - 15) 0) + ws.getD (t - 16) 0) % 2 ^ P.w
    extendW P k (ws ++ [nw])

/-- One compression round. -/
def roundStep (P : ShaParams) (ws : List ℕ) (s : Hash8) (t : ℕ) : Hash8 :=
  let T1 := (s.h + bigSigma1 P s.e + shaCh P.w s.e s.f s.g + shaK P t +
    ws.getD t 0) % 2 ^ P.w
  let T2 := (bigSigma0 P s.a + shaMaj s.a s.b s.c) % 2 ^ P.w
  ⟨(T1 + T2) % 2 ^ P.w, s.a, s.b, s.c, (s.d + T1) % 2 ^ P.w, s.e, s.f, s.g⟩

/-- Process one message block: schedule, `rounds` compression rounds, then add
the working variables back into the chaining value mod `2^w`. -/
def processBlock (P : ShaParams) (s : Hash8) (block : List ℕ) : Hash8 :=
  let ws := extendW P (P.rounds - 16) (wordsOfBytes P.wordBytes block)
  let v := (List.range P.rounds).foldl (roundStep P ws) s
  ⟨(s.a + v.a) % 2 ^ P.w, (s.b + v.b) % 2 ^ P.w, (s.c + v.c) % 2 ^ P.w,
   (s.d + v.d) % 2 ^ P.w, (s.e + v.e) % 2 ^ P.w, (s.f + v.f) % 2 ^ P.w,
   (s.g + v.g) % 2 ^ P.w, (s.h + v.h) % 2 ^ P.w⟩

/-- The final eight hash words of a message. -/
def shaWords (P : ShaParams) (msg : List ℕ) : Hash8 :=
  let padded := padMessage P msg
  (chunksFuel P.blockBytes padded.length padded).foldl (processBlock P) (initHash P)

/-- The digest as a natural number (the big-endian concatenation of the eight
hash words — exactly `int(hexdigest, 16)` in the source). -/
def digestNat (w : ℕ) (s : Hash8) : ℕ :=
  ((((((s.a * 2 ^ w + s.b) * 2 ^ w + s.c) * 2 ^ w + s.d) * 2 ^ w + s.e) * 2 ^ w
    + s.f) * 2 ^ w + s.g) * 2 ^ w + s.h

/-- SHA-256: 32-bit words, 64 rounds, 64-byte blocks, 8-byte length field,
σ0 = rotr 7 ⊕ rotr 18 ⊕ shr 3, σ1 = rotr 17 ⊕ rotr 19 ⊕ shr 10,
Σ0 = rotr 2 ⊕ rotr 13 ⊕ rotr 22, Σ1 = rotr 6 ⊕ rotr 11 ⊕ rotr 25. -/
def sha256Params : ShaParams := ⟨32, 64, 64, 4, 8, 7, 18, 3, 17, 19, 10, 2, 13, 22, 6, 11, 25⟩

/-- SHA-512: 64-bit words, 80 rounds, 128-byte blocks, 16-byte length field,
σ0 = rotr 1 ⊕ rotr 8 ⊕ shr 7, σ1 = rotr 19 ⊕ rotr 61 ⊕ shr 6,
Σ0 = rotr 28 ⊕ rotr 34 ⊕ rotr 39, Σ1 = rotr 14 ⊕ rotr 18 ⊕ rotr 41. -/
def sha512Params : ShaParams := ⟨64, 80, 128, 8, 16, 1, 8, 7, 19, 61, 6, 28, 34, 39, 14, 18, 41⟩

/-- `int(hashlib.sha256(bytes).hexdigest(), 16)`. -/
def sha256Nat (msg : List ℕ) : ℕ := digestNat 32 (shaWords sha256Params msg)

/-- `int(hashlib.sha512(bytes).hexdigest(), 16)`. -/
def sha512Nat (msg : List ℕ) : ℕ := digestNat 64 (shaWords sha512Params msg)

/-! ### Digest bounds

The only facts about the digests the claims need are their sizes: every hash
word stays below `2^w`, hence the digest below `2^(8w)`. -/

/-- All eight words of a hash state are `w`-bit. -/
def boundedH8 (w : ℕ) (s : Hash8) : Prop :=
  s.a < 2 ^ w ∧ s.b < 2 ^ w ∧ s.c < 2 ^ w ∧ s.d < 2 ^ w ∧
  s.e < 2 ^ w ∧ s.f < 2 ^ w ∧ s.g < 2 ^ w ∧ s.h < 2 ^ w

/-! ## Privacy amplification

`BB84Simulator.privacy_amplification` (bb84_simulator.py lines 188-272).

Two boundaries with Python floats are handled as follows.

* The interior binary-entropy value `-e*log2(e) - (1-e)*log2(1-e)` (line 249)
  is transcendental and computed by the source in IEEE doubles; it is kept as
  an explicit parameter `H : ℚ → ℚ` of the embedding.  The source's branch
  structure (line 245: `h_eve = 0.0` exactly when the clipped `e` is ≤ 0 or
  ≥ 1) is embedded faithfully, and every claim about this function fixes
  `error_rate = 0`, where `H` is never consulted.
* The security margin `2 * np.log2(1 / target_security_level)` (line 252) is
  kept as the parameter `securityMargin`.  The default
  `config.TARGET_SECURITY_LEVEL` comes from `bb84_config.py`, which is not
  among the sources at hand; per the specification the default security
  parameter is `ε = 2^-128`, for which the margin is exactly `256` (exact in
  double arithmetic as well, since `2^-128`, `2^128` and `log2(2^128) = 128`
  are all exactly representable). -/

/-- Modelled from the spec: the default security margin
`2 * log2(1 / config.TARGET_SECURITY_LEVEL)` for the spec's default
`ε = 2 ^ (-128)`; `bb84_config.py` is not among the sources at hand. -/
def DEFAULT_SECURITY_MARGIN : ℚ := 256

/-- Python `int()` applied to a real value: truncation toward zero. -/
def pyInt (q : ℚ) : ℤ := if 0 ≤ q then ⌊q⌋ else ⌈q⌉

/-- The binary-entropy branch of lines 244-249: clip the error rate to
`[0, 1]`, return `0.0` on the degenerate branch, otherwise the
floating-point entropy value abstracted as `H`. -/
def h_eve (H : ℚ → ℚ) (error_rate : ℚ) : ℚ :=
  let e := min (max error_rate 0) 1
  if e ≤ 0 ∨ 1 ≤ e then 0 else H e

/-- Lines 252-253: `secure_length = max(0, int(n * (1 - h_eve) -
2 * log2(1 / target_security_level)))`. -/
def secure_length (H : ℚ → ℚ) (n : ℕ) (error_rate securityMargin : ℚ) : ℕ :=
  (max 0 (pyInt ((n : ℚ) * (1 - h_eve H error_rate) - securityMargin))).toNat

/-- Line 259: `key_str = ''.join(str(int(b)) for b in sifted_key)` followed by
`.encode()` — the ASCII bytes `'0'`/`'1'` of the bits. -/
def serializeKey (key : List Bool) : List ℕ :=
  key.map (fun b => if b then 49 else 48)

/-- Binary digits of `n`, most significant first, no leading zeros
(`natBits 0 = []`). -/
def natBits : ℕ → List ℕ
  | 0 => []
  | n + 1 => natBits ((n + 1) / 2) ++ [(n + 1) % 2]
decreasing_by exact Nat.div_lt_self (Nat.succ_pos n) (by norm_num)

/-- Python `bin(n)[2:]`: binary digits, with `bin(0)[2:] = "0"`. -/
def pyBin (n : ℕ) : List ℕ := if n = 0 then [0] else natBits n

/-- Python `str.zfill(k)`: left-pad with zeros to length `k` (no-op when the
string is already at least that long). -/
def zfill (k : ℕ) (l : List ℕ) : List ℕ := List.replicate (k - l.length) 0 ++ l

/-- Lines 258-272: hash-based bit extraction.  The first `secure_length` bits
of the 256-bit binary expansion of the SHA-256 digest, extended — when more
than 256 bits are wanted — by the first `secure_length - 256` bits of the
512-bit binary expansion of the SHA-512 digest of the same input, the whole
list finally truncated to `secure_length` (all slices in the source are
Python slices, which silently stop at the end of the data). -/
def finalBits (key : List Bool) (sl : ℕ) : List ℕ :=
  (if 256 < sl then
      (zfill 256 (pyBin (sha256Nat (serializeKey key)))).take sl ++
        (zfill 512 (pyBin (sha512Nat (serializeKey key)))).take (sl - 256)
    else (zfill 256 (pyBin (sha256Nat (serializeKey key)))).take sl).take sl

/-- `BB84Simulator.privacy_amplification` (bb84_simulator.py lines 188-272). -/
def privacy_amplification (H : ℚ → ℚ) (sifted_key : List Bool)
    (error_rate securityMargin : ℚ) : List ℕ :=
  if sifted_key.length = 0 then []
  else if secure_length H sifted_key.length error_rate securityMargin = 0 then []
  else finalBits sifted_key (secure_length H sifted_key.length error_rate securityMargin)

/-! ## Security assessment

`BB84Simulator.assess_security` (bb84_simulator.py lines 274-348) returns a
Python dict with the string keys `status`, `message`, `action`, `color`.  The
dict is embedded as an association list.  The `message` values are f-strings
interpolating floats (`qber:.3f` and `str(threshold)`); the exact characters
produced by IEEE-754 float formatting are presentation-only and not exactly
embeddable, so interpolated pieces are kept symbolic: a dict value is a list
of `PyStr` pieces whose concatenation is the Python string. -/

inductive PyStr where
  /-- a literal piece of an f-string. -/
  | lit : String → PyStr
  /-- the text of the float interpolation with format spec `.3f`. -/
  | fmt3 : ℚ → PyStr
  /-- the text of the plain interpolation `str(x)`. -/
  | pystr : ℚ → PyStr
deriving DecidableEq, Repr

/-- Modelled from the spec: `config.DEFAULT_QBER_THRESHOLD`; `bb84_config.py`
is not among the sources at hand, and spec §4.4/§6 and the source docstring
(line 317) give the default threshold as 0.11. -/
def DEFAULT_QBER_THRESHOLD : ℚ := 11 / 100

/-- `BB84Simulator.assess_security`, bb84_simulator.py lines 274-348.  In the
source as staged this function has NO executable body: after its docstring
closes at line 327, a stale docstring remnant at lines 329-331 reopens a
triple-quoted string immediately afterwards, swallowing lines 332-352 — the
entire body, `if qber <= threshold: ...` included — as string content and
flipping the quote parity of the remainder of the file, which fails to
tokenize (an unterminated triple-quoted string opened at line 378 is detected
at end of file).  The module therefore cannot be imported at all, and no call
to `assess_security` ever executes.  This definition transcribes the
swallowed body text of lines 332-348 — the evident intended implementation,
which also matches the function's own docstring (lines 303-305 and 322-326)
and the spec: `SECURE` when `qber <= threshold`, `INSECURE` otherwise,
packaged in a dict with keys `status`, `message`, `action`, `color`.  Claims
about this function are settled against this transcription and reported as
code bugs where they assert executable behaviour. -/
def assess_security (qber : ℚ) (threshold? : Option ℚ) : List (String × List PyStr) :=
  let threshold := threshold?.getD DEFAULT_QBER_THRESHOLD
  if qber ≤ threshold then
    [("status", [PyStr.lit "SECURE"]),
     ("message", [PyStr.lit "QBER (", PyStr.fmt3 qber,
       PyStr.lit ") below threshold. Key exchange successful."]),
     ("action", [PyStr.lit "PROCEED_WITH_KEY"]),
     ("color", [PyStr.lit "green"])]
  else
    [("status", [PyStr.lit "INSECURE"]),
     ("message", [PyStr.lit "QBER (", PyStr.fmt3 qber,
       PyStr.lit ") exceeds threshold (", PyStr.pystr threshold,
       PyStr.lit "). Eavesdropping suspected."]),
     ("action", [PyStr.lit "ABORT_AND_RETRY"]),
     ("color", [PyStr.lit "red"])]

/-! ## Timeline and per-scenario QBER

`run_bb84_simulation` in `bb84_2.py` builds a timeline DataFrame with
`create_transmission_timeline` (imported from `bb84_utils.py`) and reduces it
to QBER and a verdict in `compute_scenario` (bb84_2.py lines 664-674). -/

/-- Modelled from the spec: one row of the timeline produced by
`create_transmission_timeline`, which lives in `bb84_utils.py`, a file not
among the sources at hand.  Spec §4.3/§6: fields
`BitIndex, AliceBit, AliceBasis, BobBasis, BobResult, Used, Error` with
`Used[i] = (alice_bases[i] == bob_bases[i])` and
`Error[i] = Used[i] and (alice_bits[i] != bob_results[i])`. -/
structure TimelineRow where
  bitIndex : ℕ
  aliceBit : Bool
  aliceBasis : Bool
  bobBasis : Bool
  bobResult : Bool
  used : Bool
  error : Bool
deriving DecidableEq, Repr

/-- Modelled from the spec: `create_transmission_timeline` (in
`bb84_utils.py`, not among the sources at hand) — pure tabulation per spec
§4.3. -/
def create_transmission_timeline (alice_bits alice_bases bob_bases bob_results :
    List Bool) : List TimelineRow :=
  (List.range alice_bits.length).map (fun i =>
    let used := alice_bases.getD i false = bob_bases.getD i false
    let err := used ∧ alice_bits.getD i false ≠ bob_results.getD i false
    ⟨i, alice_bits.getD i false, alice_bases.getD i false, bob_bases.getD i false,
     bob_results.getD i false, decide used, decide err⟩)

/-- The error count of `compute_scenario` (bb84_2.py line 669):
`errors = int(np.sum(used["Error"].values))` over the rows with `Used` true. -/
def scenario_errors (timeline : List TimelineRow) : ℕ :=
  ((timeline.filter (fun r => r.used)).filter (fun r => r.error)).length

/-- The QBER of `compute_scenario` (bb84_2.py line 670):
`qber = errors / len(used) if len(used) > 0 else 0.0`. -/
def scenario_qber (timeline : List TimelineRow) : ℚ :=
  if 0 < (timeline.filter (fun r => r.used)).length then
    (scenario_errors timeline : ℚ) / ((timeline.filter (fun r => r.used)).length : ℚ)
  else 0

/-- The verdict of `compute_scenario` (bb84_2.py line 671):
`sec = sim.assess_security(float(qber), float(threshold))`, read back through
its `status` key.  Note this goes through `assess_security`, whose source
body is dead text (see its doc comment): in the staged program this line can
never run, because `bb84_2.py` imports the untokenizable `bb84_simulator`
module at its line 490. -/
def scenario_status (timeline : List TimelineRow) (threshold : ℚ) :
    Option (List PyStr) :=
  (assess_security (scenario_qber timeline) (some threshold)).lookup "status"

/-! ## Concrete instances used by closed evaluations -/

/-- A concrete tape: Eve bases all Z, intercept draws and noise draws all 1
(so draws in `[0,1)` are modelled conservatively: a draw of 1 is below no
probability in `[0,1]`), all measurement shots sampling 0. -/
def tape0 : Tape := ⟨fun _ => false, fun _ => 1, fun _ => false, fun _ => false, fun _ => 1⟩

/-- A concrete instantiation of the abstract interior-entropy parameter `H`
for closed evaluations; its value is never consulted on the
`error_rate = 0` branch the concrete claims exercise. -/
def hZero : ℚ → ℚ := fun _ => 0

/-- The per-index outcome of the intercept branch (bb84_simulator.py lines
129-169) as a function of the random draws, with Bob measuring in basis `bb`:
Eve measures `X^bit |0⟩` in her basis `eb` (Alice's basis gate is never
applied in this branch), re-encodes her result in `eb`, and Bob measures in
`bb`.  `eveCoin`/`bobCoin` are the two measurement shots' sampled outcomes. -/
def interceptedOutcome (bit bb eb eveCoin bobCoin : Bool) : Bool :=
  measureZ
    (hPow bb (hPow eb (xPow (measureZ (hPow eb (xPow bit qZero)) eveCoin) qZero)))
    bobCoin

/-! ### Basic lemmas about the loop -/

theorem simLoop_length (t : Tape) (aB bB : List Bool) (eve : Bool) (p q : ℚ) :
    ∀ (bits : List Bool) (i : ℕ) (l : List (Bool × Bool)),
      simLoop t aB bB eve p q bits i = some l → l.length = bits.length := by
  intro bits
  induction bits with
  | nil => intro i l h; simp [simLoop] at h; simp [← h]
  | cons bit rest ih =>
    intro i l h
    simp only [simLoop] at h
    cases hs : transmitStep t aB bB eve p q bit i with
    | none => rw [hs] at h; simp at h
    | some pr =>
      cases hr : simLoop t aB bB eve p q rest (i + 1) with
      | none => rw [hs, hr] at h; simp at h
      | some l0 =>
        rw [hs, hr] at h
        simp only [Option.some.injEq] at h
        subst h
        simp [ih (i + 1) l0 hr]

theorem simLoop_get (t : Tape) (aB bB : List Bool) (eve : Bool) (p q : ℚ) :
    ∀ (bits : List Bool) (i : ℕ) (l : List (Bool × Bool)),
      simLoop t aB bB eve p q bits i = some l →
      ∀ j, j < bits.length →
        ∃ pr, transmitStep t aB bB eve p q (bits.getD j false) (i + j) = some pr ∧
          l.get? j = some pr := by
  intro bits
  induction bits with
  | nil => intro i l _ j hj; simp at hj
  | cons bit rest ih =>
    intro i l h j hj
    simp only [simLoop] at h
    cases hs : transmitStep t aB bB eve p q bit i with
    | none => rw [hs] at h; simp at h
    | some pr =>
      cases hr : simLoop t aB bB eve p q rest (i + 1) with
      | none => rw [hs, hr] at h; simp at h
      | some l0 =>
        rw [hs, hr] at h
        simp only [Option.some.injEq] at h
        subst h
        cases j with
        | zero => exact ⟨pr, by simpa using hs, rfl⟩
        | succ j =>
          have hj0 : j < rest.length := by simpa using hj
          obtain ⟨pr0, hstep, hget⟩ := ih (i + 1) l0 hr j hj0
          refine ⟨pr0, ?_, by simpa using hget⟩
          have : i + 1 + j = i + (j + 1) := by omega
          rw [← this]
          simpa using hstep

theorem simLoop_isSome (t : Tape) (aB bB : List Bool) (eve : Bool) (p q : ℚ) :
    ∀ (bits : List Bool) (i : ℕ),
      (simLoop t aB bB eve p q bits i).isSome = true ↔
      ∀ j, j < bits.length →
        (transmitStep t aB bB eve p q (bits.getD j false) (i + j)).isSome = true := by
  intro bits
  induction bits with
  | nil => intro i; simp [simLoop]
  | cons bit rest ih =>
    intro i
    simp only [simLoop]
    constructor
    · intro h j hj
      cases hs : transmitStep t aB bB eve p q bit i with
      | none => rw [hs] at h; simp at h
      | some pr =>
        cases hr : simLoop t aB bB eve p q rest (i + 1) with
        | none => rw [hs, hr] at h; simp at h
        | some l0 =>
          cases j with
          | zero => simp [hs]
          | succ j =>
            have hj0 : j < rest.length := by simpa using hj
            have := ((ih (i + 1)).mp (by simp [hr])) j hj0
            have heq : i + 1 + j = i + (j + 1) := by omega
            rw [heq] at this
            simpa using this
    · intro h
      have h0 : (transmitStep t aB bB eve p q bit i).isSome = true := by
        simpa using h 0 (by simp)
      cases hs : transmitStep t aB bB eve p q bit i with
      | none => rw [hs] at h0; simp at h0
      | some pr =>
        have hrest : (simLoop t aB bB eve p q rest (i + 1)).isSome = true := by
          rw [ih (i + 1)]
          intro j hj
          have := h (j + 1) (by simpa using hj)
          have heq : i + (j + 1) = i + 1 + j := by omega
          rw [heq] at this
          simpa using this
        cases hr : simLoop t aB bB eve p q rest (i + 1) with
        | none => rw [hr] at hrest; simp at hrest
        | some l0 => simp [hs, hr]

/-- With Eve absent, an iteration succeeds exactly when both basis arrays are
long enough at that index (the source reads `alice_bases[i]` at line 163 and
`bob_bases[i]` at line 167, validating nothing). -/
theorem transmitStep_noEve_isSome (t : Tape) (aB bB : List Bool) (p q : ℚ)
    (bit : Bool) (i : ℕ) :
    (transmitStep t aB bB false p q bit i).isSome = true ↔
      i < aB.length ∧ i < bB.length := by
  simp only [transmitStep]
  rw [if_neg (by simp)]
  cases ha : aB.get? i with
  | none =>
    have : aB.length ≤ i := List.get?_eq_none.mp ha
    cases hb : bB.get? i <;> simp <;> omega
  | some ab =>
    have hia : i < aB.length := by
      by_contra hcon
      rw [List.get?_eq_none.mpr (by omega)] at ha
      exact Option.noConfusion ha
    cases hb : bB.get? i with
    | none =>
      have : bB.length ≤ i := List.get?_eq_none.mp hb
      simp; omega
    | some bb =>
      have hib : i < bB.length := by
        by_contra hcon
        rw [List.get?_eq_none.mpr (by omega)] at hb
        exact Option.noConfusion hb
      simp [hia, hib]

/-! ### Digest bounds

The only facts about the digests the claims need are their sizes: every hash
word stays below `2^w`, hence the digest below `2^(8w)`. -/

theorem boundedH8_initHash (P : ShaParams) : boundedH8 P.w (initHash P) := by
  have h2 : 0 < 2 ^ P.w := Nat.pos_pow_of_pos P.w (by norm_num)
  exact ⟨Nat.mod_lt _ h2, Nat.mod_lt _ h2, Nat.mod_lt _ h2, Nat.mod_lt _ h2,
    Nat.mod_lt _ h2, Nat.mod_lt _ h2, Nat.mod_lt _ h2, Nat.mod_lt _ h2⟩

theorem boundedH8_processBlock (P : ShaParams) (s : Hash8) (block : List ℕ) :
    boundedH8 P.w (processBlock P s block) := by
  have h2 : 0 < 2 ^ P.w := Nat.pos_pow_of_pos P.w (by norm_num)
  exact ⟨Nat.mod_lt _ h2, Nat.mod_lt _ h2, Nat.mod_lt _ h2, Nat.mod_lt _ h2,
    Nat.mod_lt _ h2, Nat.mod_lt _ h2, Nat.mod_lt _ h2, Nat.mod_lt _ h2⟩

theorem boundedH8_foldl (P : ShaParams) (blocks : List (List ℕ)) (s : Hash8)
    (hs : boundedH8 P.w s) : boundedH8 P.w (blocks.foldl (processBlock P) s) := by
  induction blocks generalizing s with
  | nil => exact hs
  | cons b rest ih => exact ih _ (boundedH8_processBlock P s b)

theorem boundedH8_shaWords (P : ShaParams) (msg : List ℕ) :
    boundedH8 P.w (shaWords P msg) :=
  boundedH8_foldl P _ _ (boundedH8_initHash P)

theorem digestNat_lt (w : ℕ) (s : Hash8) (hs : boundedH8 w s) :
    digestNat w s < 2 ^ (8 * w) := by
  obtain ⟨ha, hb, hc, hd, he, hf, hg, hh⟩ := hs
  have key : ∀ x y k : ℕ, x < 2 ^ k → y < 2 ^ w → x * 2 ^ w + y < 2 ^ (k + w) := by
    intro x y k hx hy
    calc x * 2 ^ w + y < x * 2 ^ w + 2 ^ w := by omega
    _ = (x + 1) * 2 ^ w := by ring
    _ ≤ 2 ^ k * 2 ^ w := Nat.mul_le_mul_right _ hx
    _ = 2 ^ (k + w) := (pow_add 2 k w).symm
  have h1 := key s.a s.b w ha hb
  have h2 := key _ s.c (w + w) h1 hc
  have h3 := key _ s.d (w + w + w) h2 hd
  have h4 := key _ s.e (w + w + w + w) h3 he
  have h5 := key _ s.f (w + w + w + w + w) h4 hf
  have h6 := key _ s.g (w + w + w + w + w + w) h5 hg
  have h7 := key _ s.h (w + w + w + w + w + w + w) h6 hh
  have : w + w + w + w + w + w + w + w = 8 * w := by ring
  rw [this] at h7
  exact h7

theorem sha256Nat_lt (msg : List ℕ) : sha256Nat msg < 2 ^ 256 :=
  digestNat_lt 32 _ (boundedH8_shaWords sha256Params msg)

theorem sha512Nat_lt (msg : List ℕ) : sha512Nat msg < 2 ^ 512 :=
  digestNat_lt 64 _ (boundedH8_shaWords sha512Params msg)

/-! ### Length facts about the extracted bits -/

theorem natBits_length_le : ∀ k n : ℕ, n < 2 ^ k → (natBits n).length ≤ k := by
  intro k
  induction k with
  | zero =>
    intro n hn
    interval_cases n
    simp [natBits]
  | succ k ih =>
    intro n hn
    cases n with
    | zero => simp [natBits]
    | succ m =>
      rw [natBits]
      have hdiv : (m + 1) / 2 < 2 ^ k := by
        have h2 : m + 1 < 2 ^ k * 2 := by rw [← pow_succ]; exact hn
        omega
      have := ih _ hdiv
      simp only [List.length_append, List.length_cons, List.length_nil]
      omega

theorem pyBin_length_le (k n : ℕ) (hn : n < 2 ^ k) (hk : 1 ≤ k) :
    (pyBin n).length ≤ k := by
  unfold pyBin
  split
  · simpa
  · exact natBits_length_le k n hn

theorem zfill_length (k : ℕ) (l : List ℕ) (h : l.length ≤ k) :
    (zfill k l).length = k := by
  unfold zfill
  simp only [List.length_append, List.length_replicate]
  omega

theorem length_binaryHash256 (s : List ℕ) :
    (zfill 256 (pyBin (sha256Nat s))).length = 256 :=
  zfill_length _ _ (pyBin_length_le 256 _ (sha256Nat_lt s) (by norm_num))

theorem length_binaryHash512 (s : List ℕ) :
    (zfill 512 (pyBin (sha512Nat s))).length = 512 :=
  zfill_length _ _ (pyBin_length_le 512 _ (sha512Nat_lt s) (by norm_num))

/-- Whenever at least `768 = 256 + 512` bits are requested, the extraction
saturates: the result is the whole SHA-256 expansion followed by the whole
SHA-512 expansion, 768 bits in total. -/
theorem finalBits_saturates (key : List Bool) (sl : ℕ) (h : 768 ≤ sl) :
    finalBits key sl =
      zfill 256 (pyBin (sha256Nat (serializeKey key))) ++
      zfill 512 (pyBin (sha512Nat (serializeKey key))) := by
  have h256 := length_binaryHash256 (serializeKey key)
  have h512 := length_binaryHash512 (serializeKey key)
  unfold finalBits
  rw [if_pos (by omega)]
  rw [List.take_of_length_le
      (show (zfill 256 (pyBin (sha256Nat (serializeKey key)))).length ≤ sl by omega),
    List.take_of_length_le
      (show (zfill 512 (pyBin (sha512Nat (serializeKey key)))).length ≤ sl - 256 by omega),
    List.take_of_length_le
      (show (zfill 256 (pyBin (sha256Nat (serializeKey key))) ++
        zfill 512 (pyBin (sha512Nat (serializeKey key)))).length ≤ sl by
          simp only [List.length_append]; omega)]

/-! ### Gate and noise facts -/

theorem hPow_hPow_self (b : Bool) (s : QState) : hPow b (hPow b s) = s := by
  cases b <;> cases s <;> simp [hPow, gateH]

theorem measureZ_xPow_qZero (bit coin : Bool) :
    measureZ (xPow bit qZero) coin = bit := by
  cases bit <;> simp [xPow, gateX, qZero, measureZ]

theorem applyNoise_zero (t : Tape) (i : ℕ) (b : Bool) : applyNoise t 0 i b = b := by
  unfold applyNoise
  rw [if_neg]
  rintro ⟨h, _⟩
  exact absurd h (by norm_num)

/-! ### Evaluation of privacy amplification at zero error rate -/

theorem h_eve_zero (H : ℚ → ℚ) : h_eve H 0 = 0 := by
  unfold h_eve
  norm_num

theorem secure_length_100000_zero (H : ℚ → ℚ) :
    secure_length H 100000 0 256 = 99744 := by
  unfold secure_length
  rw [h_eve_zero]
  unfold pyInt
  rw [if_pos (by norm_num)]
  have : ((100000 : ℕ) : ℚ) * (1 - 0) - 256 = ((99744 : ℤ) : ℚ) := by norm_num
  rw [this, Int.floor_intCast]
  rfl

/-- Evaluation of the full pipeline on a 100,000-bit all-zero sifted key at
zero error rate and the default margin: the extraction saturates at
256 + 512 = 768 bits. -/
theorem privAmp_100000_zero (H : ℚ → ℚ) :
    privacy_amplification H (List.replicate 100000 false) 0 256 =
      zfill 256 (pyBin (sha256Nat (serializeKey (List.replicate 100000 false)))) ++
      zfill 512 (pyBin (sha512Nat (serializeKey (List.replicate 100000 false)))) := by
  unfold privacy_amplification
  rw [List.length_replicate, secure_length_100000_zero H]
  rw [if_neg (by norm_num), if_neg (by norm_num)]
  exact finalBits_saturates _ _ (by norm_num)

theorem privAmp_100000_zero_length (H : ℚ → ℚ) :
    (privacy_amplification H (List.replicate 100000 false) 0 256).length = 768 := by
  rw [privAmp_100000_zero H]
  rw [List.length_append, length_binaryHash256, length_binaryHash512]

/-- Claim C1 (amended): for a sifted key of length 100,000 and error rate 0
with the default security parameter ε = 2^-128, the code computes
`secure_length = 99744`, but the returned key has only
min(secure_length, 768) = 768 bits: the first 256 are the bits of the
SHA-256 digest of the canonical serialization of the sifted key and the
remaining 512 are the full SHA-512 digest bits of the same input — the hash
construction cannot supply more than 768 bits. -/
theorem C1_privacy_amplification_at_100000 :
    ∀ H : ℚ → ℚ,
      secure_length H 100000 0 256 = 99744 ∧
      privacy_amplification H (List.replicate 100000 false) 0 256 =
        zfill 256 (pyBin (sha256Nat (serializeKey (List.replicate 100000 false)))) ++
        zfill 512 (pyBin (sha512Nat (serializeKey (List.replicate 100000 false)))) ∧
      (privacy_amplification H (List.replicate 100000 false) 0 256).length = 768 :=
  fun H => ⟨secure_length_100000_zero H, privAmp_100000_zero H,
    privAmp_100000_zero_length H⟩

/-- Claim C1 counterexample: at the claim's own concrete input (sifted key of
length 100,000, error rate 0, default security parameter) the final key does
not have 99,744 bits — it has 768. -/
theorem C1_counterexample :
    (privacy_amplification hZero (List.replicate 100000 false) 0 256).length = 768 ∧
    (privacy_amplification hZero (List.replicate 100000 false) 0 256).length ≠ 99744 := by
  rw [privAmp_100000_zero_length hZero]
  exact ⟨rfl, by norm_num⟩

/-- Claim C7: `privacy_amplification` is a pure function of its arguments
(the source, lines 238-272, uses only numpy arithmetic and `hashlib`
digests — no randomness), so two calls with identical `(sifted_key,
error_rate)` and the same security parameter return bit-identical keys. -/
theorem C7_privacy_amplification_deterministic :
    ∀ (H : ℚ → ℚ) (sifted_key : List Bool) (error_rate securityMargin : ℚ),
      privacy_amplification H sifted_key error_rate securityMargin =
        privacy_amplification H sifted_key error_rate securityMargin :=
  fun _ _ _ _ => rfl

/-! ### Security-assessment claims -/

/-- Claim C5 (code bug): the claimed decision rule — `SECURE` exactly when
`qber ≤ threshold` (inclusive boundary), `INSECURE` exactly otherwise, with
the three concrete cases at threshold 0.11 — is exactly what the staged body
text of `assess_security` implements, proved here of the transcription; but
in the source that body is dead text inside a string literal and the module
fails to tokenize, so no call ever returns a status at all.  The claim
matches the function's own docstring and the spec; the stray docstring
remnant that kills the module is the code's slip. -/
theorem C5_assess_security_boundary :
    (∀ q t : ℚ, ((assess_security q (some t)).lookup "status" =
        some [PyStr.lit "SECURE"] ↔ q ≤ t)) ∧
    (∀ q t : ℚ, ((assess_security q (some t)).lookup "status" =
        some [PyStr.lit "INSECURE"] ↔ t < q)) ∧
    (assess_security (10 / 100) (some (11 / 100))).lookup "status" =
      some [PyStr.lit "SECURE"] ∧
    (assess_security (11 / 100) (some (11 / 100))).lookup "status" =
      some [PyStr.lit "SECURE"] ∧
    (assess_security (12 / 100) (some (11 / 100))).lookup "status" =
      some [PyStr.lit "INSECURE"] := by
  have hA : ∀ q t : ℚ, ((assess_security q (some t)).lookup "status" =
      some [PyStr.lit "SECURE"] ↔ q ≤ t) := by
    intro q t
    by_cases h : q ≤ t
    · simp only [assess_security, Option.getD_some, if_pos h]
      exact iff_of_true rfl h
    · simp only [assess_security, Option.getD_some, if_neg h]
      exact iff_of_false (by simp [List.lookup]) h
  have hB : ∀ q t : ℚ, ((assess_security q (some t)).lookup "status" =
      some [PyStr.lit "INSECURE"] ↔ t < q) := by
    intro q t
    by_cases h : q ≤ t
    · simp only [assess_security, Option.getD_some, if_pos h]
      exact iff_of_false (by simp [List.lookup]) (not_lt.mpr h)
    · simp only [assess_security, Option.getD_some, if_neg h]
      exact iff_of_true rfl (not_le.mp h)
  exact ⟨hA, hB, (hA _ _).mpr (by norm_num), (hA _ _).mpr (by norm_num),
    (hB _ _).mpr (by norm_num)⟩

/-- Claim C6 (amended): in the staged source no call to `assess_security`
returns any value — its body is dead text in an untokenizable module — and
even the staged body text refutes the claimed record shape: the dict it
would return carries a `status` field that is `SECURE` or `INSECURE`,
together with `message`, `action` and `color` fields, but does not echo the
inputs — there is no `qber` field and no `threshold` field (those values
appear only interpolated into the message text).  Proved of the
transcription of the dead body text. -/
theorem C6_assess_security_fields :
    ∀ q t : ℚ,
      ((assess_security q (some t)).lookup "status" = some [PyStr.lit "SECURE"] ∨
        (assess_security q (some t)).lookup "status" = some [PyStr.lit "INSECURE"]) ∧
      ((assess_security q (some t)).lookup "message").isSome = true ∧
      ((assess_security q (some t)).lookup "action").isSome = true ∧
      ((assess_security q (some t)).lookup "color").isSome = true ∧
      (assess_security q (some t)).lookup "qber" = none ∧
      (assess_security q (some t)).lookup "threshold" = none := by
  intro q t
  by_cases h : q ≤ t
  · simp only [assess_security, Option.getD_some, if_pos h]
    exact ⟨Or.inl rfl, rfl, rfl, rfl, rfl, rfl⟩
  · simp only [assess_security, Option.getD_some, if_neg h]
    exact ⟨Or.inr rfl, rfl, rfl, rfl, rfl, rfl⟩

/-- Claim C6 counterexample: at qber 0.10, threshold 0.11 even the staged
body text of `assess_security` (transcribed from the dead text of lines
332-348) builds a dict with no `qber` key and no `threshold` key,
contradicting the claimed `\x7bstatus, qber, threshold\x7d` record shape —
quite apart from the fact that the unparseable module never returns one. -/
theorem C6_counterexample :
    (assess_security (10 / 100) (some (11 / 100))).lookup "qber" = none ∧
    (assess_security (10 / 100) (some (11 / 100))).lookup "threshold" = none := by
  have h : (10 : ℚ) / 100 ≤ 11 / 100 := by norm_num
  simp only [assess_security, Option.getD_some, if_pos h]
  exact ⟨rfl, rfl⟩

/-! ### Timeline / QBER claims -/

/-- Claim C9 (code bug): the scenario QBER is `errors_among_used /
count(Used)` over the timeline rows with `Used` true, with the convention
`qber = 0` when `count(Used) = 0` (a conditional expression at bb84_2.py
line 670 — live code, no exception, no division by zero), and the
empty-sifted-set case would then be assessed `SECURE` for every nonnegative
threshold.  The assessment clause, however, goes through
`sim.assess_security` (bb84_2.py line 671), whose source body is dead text
in a module that fails to tokenize — `bb84_2.py` imports it at line 490, so
in the staged program `compute_scenario` never runs at all.  The theorem
proves the claimed behaviour of the embedding, the verdict taken from the
transcription of the dead body text. -/
theorem C9_qber_convention :
    ∀ (alice_bits alice_bases bob_bases bob_results : List Bool) (threshold : ℚ),
      (0 < ((create_transmission_timeline alice_bits alice_bases bob_bases
            bob_results).filter (fun r => r.used)).length →
        scenario_qber (create_transmission_timeline alice_bits alice_bases
            bob_bases bob_results) =
          (scenario_errors (create_transmission_timeline alice_bits alice_bases
            bob_bases bob_results) : ℚ) /
          (((create_transmission_timeline alice_bits alice_bases bob_bases
            bob_results).filter (fun r => r.used)).length : ℚ)) ∧
      (((create_transmission_timeline alice_bits alice_bases bob_bases
            bob_results).filter (fun r => r.used)).length = 0 →
        scenario_qber (create_transmission_timeline alice_bits alice_bases
            bob_bases bob_results) = 0 ∧
        (0 ≤ threshold →
          scenario_status (create_transmission_timeline alice_bits alice_bases
            bob_bases bob_results) threshold = some [PyStr.lit "SECURE"])) := by
  intro alice_bits alice_bases bob_bases bob_results threshold
  constructor
  · intro h
    unfold scenario_qber
    rw [if_pos h]
  · intro h
    have hq : scenario_qber (create_transmission_timeline alice_bits alice_bases
        bob_bases bob_results) = 0 := by
      unfold scenario_qber
      rw [if_neg (by omega)]
    refine ⟨hq, fun ht => ?_⟩
    unfold scenario_status
    rw [hq]
    simp only [assess_security, Option.getD_some, if_pos ht]
    rfl

/-- Claim C9 witness: a run whose single index has mismatched bases — the
sifted set is empty, the QBER is 0 by convention and the verdict is SECURE
at threshold 0. -/
theorem C9_witness :
    scenario_qber (create_transmission_timeline [true] [false] [true] [true]) = 0 ∧
    scenario_status (create_transmission_timeline [true] [false] [true] [true]) 0 =
      some [PyStr.lit "SECURE"] := by
  have h := (C9_qber_convention [true] [false] [true] [true] 0).2 (by decide)
  exact ⟨h.1, h.2 (by norm_num)⟩

/-! ### Transmission claims -/

/-- Claim C2: with Eve absent and zero channel noise, at every index where
Alice's and Bob's bases agree, Bob's result equals Alice's bit — for every
random tape, i.e. with probability 1: the double Hadamard cancels and the
measurement is deterministic. -/
theorem C2_matched_basis_deterministic :
    ∀ (t : Tape) (alice_bits alice_bases bob_bases : List Bool) (p : ℚ)
      (bobs : List Bool) (ev : Option (List Bool)) (i : ℕ),
      simulate_transmission t alice_bits alice_bases bob_bases false p 0 =
        some (bobs, ev) →
      i < alice_bits.length →
      alice_bases.get? i = bob_bases.get? i →
      bobs.get? i = alice_bits.get? i := by
  intro t bits aB bB p bobs ev i hsim hi hbases
  unfold simulate_transmission at hsim
  obtain ⟨l, hl, hmap⟩ := Option.map_eq_some'.mp hsim
  have hbobs : bobs = l.map Prod.fst := by
    have := congrArg Prod.fst hmap
    simpa using this.symm
  obtain ⟨pr, hstep, hget⟩ := simLoop_get t aB bB false p 0 bits 0 l hl i hi
  rw [Nat.zero_add] at hstep
  unfold transmitStep at hstep
  rw [if_neg (by rintro ⟨hfalse, _⟩; exact Bool.false_ne_true hfalse)] at hstep
  cases ha : aB.get? i with
  | none =>
    rw [ha] at hstep
    cases hb : bB.get? i <;> rw [hb] at hstep <;> exact Option.noConfusion hstep
  | some ab =>
    cases hb : bB.get? i with
    | none => rw [ha, hb] at hstep; exact Option.noConfusion hstep
    | some bb =>
      rw [ha, hb] at hstep
      have hab : ab = bb := by
        rw [ha, hb] at hbases
        exact Option.some.inj hbases
      subst hab
      have hpr : pr = (bits.getD i false, false) := by
        have := Option.some.inj hstep
        rw [← this, hPow_hPow_self, measureZ_xPow_qZero, applyNoise_zero]
      have hbg : bits.get? i = some (bits.getD i false) := by
        rw [List.get?_eq_get hi, List.getD_eq_get?, List.get?_eq_get hi]
        rfl
      rw [hbobs, List.get?_map, hget, hbg, hpr]
      rfl

/-- Claim C2 witness: a two-index run with matched bases on the X basis where
Bob reproduces Alice's bits exactly. -/
theorem C2_witness :
    simulate_transmission tape0 [false, true] [true, true] [true, true] false 0 0 =
      some ([false, true], none) ∧
    ([false, true] : List Bool).get? 1 = ([false, true] : List Bool).get? 1 :=
  ⟨by decide,
   C2_matched_basis_deterministic tape0 [false, true] [true, true] [true, true] 0
     [false, true] none 1 (by decide) (by decide) rfl⟩

/-- Claim C4 (amended): `simulate_transmission` performs no input validation.
With Eve absent a call succeeds exactly when `alice_bits` is no longer than
each basis array — extra basis entries are silently ignored (output truncated
to `len(alice_bits)`); when `alice_bits` is longer the call fails with an
index error, not a validation error; and out-of-range probabilities are
accepted without complaint. -/
theorem C4_no_input_validation :
    ∀ (t : Tape) (alice_bits alice_bases bob_bases : List Bool) (p q : ℚ),
      (simulate_transmission t alice_bits alice_bases bob_bases false p q).isSome
          = true ↔
        (alice_bits.length ≤ alice_bases.length ∧
          alice_bits.length ≤ bob_bases.length) := by
  intro t bits aB bB p q
  unfold simulate_transmission
  rw [Option.isSome_map']
  rw [simLoop_isSome]
  simp only [Nat.zero_add, transmitStep_noEve_isSome]
  constructor
  · intro h
    constructor
    · by_contra hc
      push_neg at hc
      exact absurd ((h aB.length (by omega)).1) (by omega)
    · by_contra hc
      push_neg at hc
      exact absurd ((h bB.length (by omega)).2) (by omega)
  · rintro ⟨h1, h2⟩ j hj
    omega

/-- Claim C4 counterexample: a call with `alice_bits` shorter than the basis
arrays succeeds and silently truncates to one output bit (no validation
error), and a call with `noise_prob = 2` (outside `[0, 1]`) is accepted —
here it deterministically flips Bob's bit. -/
theorem C4_counterexample :
    simulate_transmission tape0 [false] [false, true] [false, true] false 0 0 =
      some ([false], none) ∧
    simulate_transmission tape0 [false] [false] [false] false 0 2 =
      some ([true], none) := by
  decide

/-- Claim C10: with Eve present, `eve_results` is a list with one entry per
input index; wherever Eve's intercept draw fails the entry is the
`np.zeros` placeholder 0, and `eve_results` is `None` exactly when
`eve_present` is false. -/
theorem C10_eve_results_shape :
    ∀ (t : Tape) (alice_bits alice_bases bob_bases : List Bool) (p q : ℚ)
      (bobs : List Bool) (ev : Option (List Bool)),
      (simulate_transmission t alice_bits alice_bases bob_bases true p q =
          some (bobs, ev) →
        ∃ l, ev = some l ∧ l.length = alice_bits.length ∧
          ∀ i, i < alice_bits.length → ¬ t.interceptDraw i < p →
            l.get? i = some false) ∧
      (simulate_transmission t alice_bits alice_bases bob_bases false p q =
          some (bobs, ev) →
        ev = none) := by
  intro t bits aB bB p q bobs ev
  constructor
  · intro hsim
    unfold simulate_transmission at hsim
    obtain ⟨l, hl, hmap⟩ := Option.map_eq_some'.mp hsim
    have hev : ev = some (l.map Prod.snd) := by
      have := congrArg Prod.snd hmap
      simpa using this.symm
    refine ⟨l.map Prod.snd, hev, ?_, ?_⟩
    · rw [List.length_map]
      exact simLoop_length t aB bB true p q bits 0 l hl
    · intro i hi hnp
      obtain ⟨pr, hstep, hget⟩ := simLoop_get t aB bB true p q bits 0 l hl i hi
      rw [Nat.zero_add] at hstep
      unfold transmitStep at hstep
      rw [if_neg (by rintro ⟨_, hlt⟩; exact hnp hlt)] at hstep
      rw [List.get?_map, hget]
      cases ha : aB.get? i with
      | none =>
        rw [ha] at hstep
        cases hb : bB.get? i <;> rw [hb] at hstep <;> exact Option.noConfusion hstep
      | some ab =>
        cases hb : bB.get? i with
        | none => rw [ha, hb] at hstep; exact Option.noConfusion hstep
        | some bb =>
          rw [ha, hb] at hstep
          have := Option.some.inj hstep
          rw [← this]
          rfl
  · intro hsim
    unfold simulate_transmission at hsim
    obtain ⟨l, hl, hmap⟩ := Option.map_eq_some'.mp hsim
    have := congrArg Prod.snd hmap
    simpa using this.symm

/-- Claim C10 witness: a one-index run with Eve present whose intercept draw
fails: `eve_results` is `some` list of length 1 holding the placeholder 0. -/
theorem C10_witness :
    ∃ l, (some [false] : Option (List Bool)) = some l ∧
      l.length = ([true] : List Bool).length ∧
      ∀ i, i < ([true] : List Bool).length → ¬ tape0.interceptDraw i < (0 : ℚ) →
        l.get? i = some false :=
  (C10_eve_results_shape tape0 [true] [true] [false] 0 0 [false]
    (some [false])).1 (by decide)

/-! ### The intercept-resend error probability -/

/-- The intercept branch of `transmitStep` computes exactly
`interceptedOutcome`, Eve's recorded result being her measurement of
`X^bit |0⟩` in her own basis. -/
theorem transmitStep_intercepted (t : Tape) (aB bB : List Bool) (p q : ℚ)
    (bit : Bool) (i : ℕ) (bb : Bool) (hp : t.interceptDraw i < p)
    (hbb : bB.get? i = some bb) :
    transmitStep t aB bB true p q bit i =
      some (applyNoise t q i
          (interceptedOutcome bit bb (t.eveBasis i) (t.eveShot i) (t.bobShot i)),
        measureZ (hPow (t.eveBasis i) (xPow bit qZero)) (t.eveShot i)) := by
  unfold transmitStep interceptedOutcome
  rw [if_pos ⟨rfl, hp⟩, hbb]

/-- Claim C3 (code bug): conditional on Eve intercepting index `i` and on
`alice_bases[i] = bob_bases[i]`, counting Bob errors uniformly over the three
random draws (Eve's basis and the two measurement shots): when the matched
basis is Z (0), 2 of the 8 equally likely draw triples give a wrong bit
(probability 1/4, as claimed); but when the matched basis is X (1), 4 of 8 do
(probability 1/2 ≠ 1/4) — because the intercept branch never applies Alice's
basis gate, `alice_bases[i]` being read only in the non-intercept branch.
The claimed uniform 1/4 is what the source's own docstring asserts; the code
disagrees. -/
theorem C3_intercept_error_probability :
    ((Finset.univ : Finset (Bool × Bool × Bool)).filter
        (fun c => interceptedOutcome false false c.1 c.2.1 c.2.2 ≠ false)).card
      = 2 ∧
    ((Finset.univ : Finset (Bool × Bool × Bool)).filter
        (fun c => interceptedOutcome false true c.1 c.2.1 c.2.2 ≠ false)).card
      = 4 ∧
    ((Finset.univ : Finset (Bool × Bool × Bool)).filter
        (fun c => interceptedOutcome true true c.1 c.2.1 c.2.2 ≠ true)).card
      = 4 ∧
    ((Finset.univ : Finset (Bool × Bool × Bool)).card = 8) ∧
    ((4 : ℚ) / 8 ≠ 1 / 4) := by
  refine ⟨by decide, by decide, by decide, by decide, by norm_num⟩
